import Mathlib

/-!
# On-chain decision blueprints: a shallow embedding

A verification development for the `onchain-decision-blueprints` program
(`src/program/src/{state,instruction,error,processor}.rs`).

The program's data (borsh-serialized `Blueprint` and `Proposal` records, the
`BlueprintInstruction` command enum) and the four handlers of
`Processor` are embedded as executable Lean definitions.  Bytes are `Fin 256`;
account data is `List Byte`; the runtime's address-derivation primitive
(`find_program_address`, external to the program) is passed in as an explicit
parameter; machine panics (the out-of-range slice in the write-back
`data.borrow_mut()[..data.len()]`) are modelled as a distinguished
`PErr.Panic` outcome.
-/

namespace Blueprints

abbrev Byte := Fin 256

/-- A 32-byte string: a Solana `Pubkey` or a `[u8; 32]` payload hash. -/
abbrev Bytes32 := { l : List Byte // l.length = 32 }

abbrev Pubkey := Bytes32

/-- `state.rs`: `Blueprint { authority, approvers, threshold }`.
`threshold` is a `u8`. -/
structure Blueprint where
  authority : Pubkey
  approvers : List Pubkey
  threshold : Byte
deriving DecidableEq

/-- `state.rs`: `Proposal { blueprint, proposer, action_type, payload_hash,
approvals, executed }`.  `action_type` is a `u16`. -/
structure Proposal where
  blueprint : Pubkey
  proposer : Pubkey
  action_ty : Fin 65536
  payload_hash : Bytes32
  approvals : List Pubkey
  executed : Bool
deriving DecidableEq

/-- `instruction.rs`: the `BlueprintInstruction` command enum. -/
inductive BlueprintInstruction where
  | InitializeBlueprint (approvers : List Pubkey) (threshold : Byte)
  | ProposeAction (action_ty : Fin 65536) (payload_hash : Bytes32)
  | ApproveAction
  | ExecuteAction
deriving DecidableEq

/-! ## Borsh encoding

Borsh serializes fixed-width integers little-endian, `Vec<T>` as a `u32`
little-endian length followed by the elements, `bool` as one byte `0`/`1`,
and an enum as a single `u8` variant tag followed by the variant's fields. -/

def encodeU16 (n : Nat) : List Byte :=
  [⟨n % 256, Nat.mod_lt _ (by omega)⟩, ⟨n / 256 % 256, Nat.mod_lt _ (by omega)⟩]

def encodeU32 (n : Nat) : List Byte :=
  [⟨n % 256, Nat.mod_lt _ (by omega)⟩,
   ⟨n / 256 % 256, Nat.mod_lt _ (by omega)⟩,
   ⟨n / 65536 % 256, Nat.mod_lt _ (by omega)⟩,
   ⟨n / 16777216 % 256, Nat.mod_lt _ (by omega)⟩]

def encodeBool : Bool → List Byte
  | false => [⟨0, by omega⟩]
  | true => [⟨1, by omega⟩]

def encodeKeys : List Bytes32 → List Byte
  | [] => []
  | k :: ks => k.val ++ encodeKeys ks

/-- Raw borsh bytes of a `Blueprint` (the payload of `try_to_vec`). -/
def blueprintBytes (bp : Blueprint) : List Byte :=
  bp.authority.val ++ encodeU32 bp.approvers.length ++ encodeKeys bp.approvers
    ++ [bp.threshold]

/-- Raw borsh bytes of a `Proposal`. -/
def proposalBytes (p : Proposal) : List Byte :=
  p.blueprint.val ++ p.proposer.val ++ encodeU16 p.action_ty.val
    ++ p.payload_hash.val ++ encodeU32 p.approvals.length
    ++ encodeKeys p.approvals ++ encodeBool p.executed

/-- `Blueprint::try_to_vec()`: borsh serialization fails when a `Vec` length
does not fit in a `u32`. -/
def encodeBlueprint (bp : Blueprint) : Option (List Byte) :=
  if bp.approvers.length < 4294967296 then some (blueprintBytes bp) else none

/-- `Proposal::try_to_vec()`. -/
def encodeProposal (p : Proposal) : Option (List Byte) :=
  if p.approvals.length < 4294967296 then some (proposalBytes p) else none

/-- Raw borsh bytes of a `BlueprintInstruction`: a one-byte variant tag,
then the variant's fields in declaration order. -/
def instructionBytes : BlueprintInstruction → List Byte
  | .InitializeBlueprint approvers threshold =>
      ⟨0, by omega⟩ :: (encodeU32 approvers.length ++ encodeKeys approvers
        ++ [threshold])
  | .ProposeAction action_ty payload_hash =>
      ⟨1, by omega⟩ :: (encodeU16 action_ty.val ++ payload_hash.val)
  | .ApproveAction => [⟨2, by omega⟩]
  | .ExecuteAction => [⟨3, by omega⟩]

def encodeInstruction (ix : BlueprintInstruction) : Option (List Byte) :=
  match ix with
  | .InitializeBlueprint approvers _ =>
      if approvers.length < 4294967296 then some (instructionBytes ix) else none
  | _ => some (instructionBytes ix)

/-! ## Borsh decoding

Each parser consumes a prefix of a byte list and returns the decoded value
plus the remainder; `try_from_slice` additionally demands that the remainder
is empty. -/

def parseU8 : List Byte → Option (Byte × List Byte)
  | [] => none
  | b :: rest => some (b, rest)

def parseU16 : List Byte → Option (Fin 65536 × List Byte)
  | b0 :: b1 :: rest =>
      some (⟨b0.val + 256 * b1.val, by
        have h0 := b0.isLt; have h1 := b1.isLt; omega⟩, rest)
  | _ => none

def parseU32 : List Byte → Option (Nat × List Byte)
  | b0 :: b1 :: b2 :: b3 :: rest =>
      some (b0.val + 256 * (b1.val + 256 * (b2.val + 256 * b3.val)), rest)
  | _ => none

def parseBool : List Byte → Option (Bool × List Byte)
  | b :: rest =>
      if b.val = 0 then some (false, rest)
      else if b.val = 1 then some (true, rest)
      else none
  | [] => none

def parseBytes32 (b : List Byte) : Option (Bytes32 × List Byte) :=
  if h : 32 ≤ b.length then
    some (⟨b.take 32, by rw [List.length_take]; omega⟩, b.drop 32)
  else none

def parseKeys : Nat → List Byte → Option (List Bytes32 × List Byte)
  | 0, b => some ([], b)
  | n + 1, b => do
      let (k, r) ← parseBytes32 b
      let (ks, r') ← parseKeys n r
      some (k :: ks, r')

def parseBlueprint (b : List Byte) : Option (Blueprint × List Byte) := do
  let (authority, r1) ← parseBytes32 b
  let (len, r2) ← parseU32 r1
  let (approvers, r3) ← parseKeys len r2
  let (threshold, r4) ← parseU8 r3
  some ({ authority, approvers, threshold }, r4)

def parseProposal (b : List Byte) : Option (Proposal × List Byte) := do
  let (blueprint, r1) ← parseBytes32 b
  let (proposer, r2) ← parseBytes32 r1
  let (action_ty, r3) ← parseU16 r2
  let (payload_hash, r4) ← parseBytes32 r3
  let (len, r5) ← parseU32 r4
  let (approvals, r6) ← parseKeys len r5
  let (executed, r7) ← parseBool r6
  some ({ blueprint, proposer, action_ty, payload_hash, approvals, executed }, r7)

def parseInstruction (b : List Byte) : Option (BlueprintInstruction × List Byte) := do
  let (tag, r0) ← parseU8 b
  if tag.val = 0 then do
      let (len, r1) ← parseU32 r0
      let (approvers, r2) ← parseKeys len r1
      let (threshold, r3) ← parseU8 r2
      some (.InitializeBlueprint approvers threshold, r3)
  else if tag.val = 1 then do
      let (action_ty, r1) ← parseU16 r0
      let (payload_hash, r2) ← parseBytes32 r1
      some (.ProposeAction action_ty payload_hash, r2)
  else if tag.val = 2 then some (.ApproveAction, r0)
  else if tag.val = 3 then some (.ExecuteAction, r0)
  else none

/-- `Blueprint::try_from_slice`: decode and require full consumption. -/
def decodeBlueprint (b : List Byte) : Option Blueprint :=
  match parseBlueprint b with
  | some (bp, []) => some bp
  | _ => none

/-- `Proposal::try_from_slice`. -/
def decodeProposal (b : List Byte) : Option Proposal :=
  match parseProposal b with
  | some (p, []) => some p
  | _ => none

/-- `BlueprintInstruction::try_from_slice`. -/
def decodeInstruction (b : List Byte) : Option BlueprintInstruction :=
  match parseInstruction b with
  | some (ix, []) => some ix
  | _ => none

/-! ## Processor

`processor.rs`.  Each handler receives its accounts positionally; an
`AccountInfo` carries the fields the handlers use (`key`, `is_signer`,
`data`).  Programs write a slot with
`data.borrow_mut()[..data.len()].copy_from_slice(&data)`, which panics
(`PErr.Panic`) when the new encoding is longer than the slot. -/

inductive PErr where
  | InvalidInstruction
  | Unauthorized
  | AlreadyApproved
  | NotEnoughApprovals
  | AlreadyExecuted
  | MissingRequiredSignature
  | InvalidArgument
  | InvalidSeeds
  | BorshError
  | Panic
deriving DecidableEq

structure AccountInfo where
  key : Pubkey
  signer : Bool
  data : List Byte
deriving DecidableEq

/-- `account.data.borrow_mut()[..data.len()].copy_from_slice(&data)`: in-place
prefix write; an out-of-range slice is a panic. -/
def writeSlot (slot data : List Byte) : Except PErr (List Byte) :=
  if data.length ≤ slot.length then .ok (data ++ slot.drop data.length)
  else .error .Panic

/-- The validation-and-update core of `process_approve`
(processor.rs:160-176): runs after both slots have been decoded. -/
def approveLogic (blueprint : Blueprint) (proposal : Proposal)
    (approverKey : Pubkey) : Except PErr Proposal :=
  if proposal.executed then .error .AlreadyExecuted
  else if ¬ approverKey ∈ blueprint.approvers then .error .Unauthorized
  else if approverKey ∈ proposal.approvals then .error .AlreadyApproved
  else .ok { proposal with approvals := proposal.approvals ++ [approverKey] }

/-- The validation-and-update core of `process_execute`
(processor.rs:194-204). -/
def executeLogic (blueprint : Blueprint) (proposal : Proposal) :
    Except PErr Proposal :=
  if proposal.executed then .error .AlreadyExecuted
  else if proposal.approvals.length < blueprint.threshold.val then
    .error .NotEnoughApprovals
  else .ok { proposal with executed := true }

/-- `process_approve` (processor.rs:147-178).  Returns the post-state of the
two non-signer accounts `(blueprint_ai, proposal_ai)`; only the proposal
slot is ever written. -/
def processApprove (approver blueprint_ai proposal_ai : AccountInfo) :
    Except PErr (AccountInfo × AccountInfo) :=
  if !approver.signer then .error .MissingRequiredSignature else
  match decodeBlueprint blueprint_ai.data with
  | none => .error .BorshError
  | some blueprint =>
    match decodeProposal proposal_ai.data with
    | none => .error .BorshError
    | some proposal =>
      match approveLogic blueprint proposal approver.key with
      | .error e => .error e
      | .ok p =>
        match encodeProposal p with
        | none => .error .BorshError
        | some data =>
          match writeSlot proposal_ai.data data with
          | .error e => .error e
          | .ok newData => .ok (blueprint_ai, { proposal_ai with data := newData })

/-- `process_execute` (processor.rs:181-208). -/
def processExecute (executor blueprint_ai proposal_ai : AccountInfo) :
    Except PErr (AccountInfo × AccountInfo) :=
  if !executor.signer then .error .MissingRequiredSignature else
  match decodeBlueprint blueprint_ai.data with
  | none => .error .BorshError
  | some blueprint =>
    match decodeProposal proposal_ai.data with
    | none => .error .BorshError
    | some proposal =>
      match executeLogic blueprint proposal with
      | .error e => .error e
      | .ok p =>
        match encodeProposal p with
        | none => .error .BorshError
        | some data =>
          match writeSlot proposal_ai.data data with
          | .error e => .error e
          | .ok newData => .ok (blueprint_ai, { proposal_ai with data := newData })

/-- `process_initialize_blueprint` (processor.rs:38-91): the checks and the
record the handler writes.  `derivedPda` stands for the runtime's
`find_program_address(["blueprint", authority.key], program_id).0`; account
creation itself is the runtime's job. -/
def processInitialize (authority blueprint_ai : AccountInfo)
    (derivedPda : Pubkey) (approvers : List Pubkey) (threshold : Byte) :
    Except PErr Blueprint :=
  if !authority.signer then .error .MissingRequiredSignature
  else if threshold.val = 0 ∨ threshold.val > approvers.length then
    .error .InvalidArgument
  else if derivedPda ≠ blueprint_ai.key then .error .InvalidSeeds
  else .ok { authority := authority.key, approvers, threshold }

/-- `process_propose` (processor.rs:94-144): the checks and the bytes written
into the freshly created proposal slot, which is sized exactly to them.
`derivedPda` stands for `find_program_address(["proposal", blueprint.key,
payload_hash], program_id).0`. -/
def processPropose (proposer blueprint_ai proposal_ai : AccountInfo)
    (derivedPda : Pubkey) (action_ty : Fin 65536) (payload_hash : Bytes32) :
    Except PErr (List Byte) :=
  if !proposer.signer then .error .MissingRequiredSignature else
  match decodeBlueprint blueprint_ai.data with
  | none => .error .BorshError
  | some _ =>
    if derivedPda ≠ proposal_ai.key then .error .InvalidSeeds
    else
      match encodeProposal
        { blueprint := blueprint_ai.key, proposer := proposer.key,
          action_ty, payload_hash, approvals := [], executed := false } with
      | none => .error .BorshError
      | some data => .ok data

/-- The instruction-decoding step of `Processor::process`
(processor.rs:22-24): a malformed command is `InvalidInstruction`. -/
def dispatchDecode (input : List Byte) : Except PErr BlueprintInstruction :=
  match decodeInstruction input with
  | some ix => .ok ix
  | none => .error .InvalidInstruction

/-! ## Invocation sequences

For the monotonicity claim: an invocation is an Approve or Execute attempt
against the proposal, carrying whatever blueprint slot and signer flag the
caller supplies.  A failing handler leaves the proposal unchanged (the
single write happens after all checks). -/

inductive Invocation where
  | approve (blueprint : Blueprint) (key : Pubkey) (signer : Bool)
  | execute (blueprint : Blueprint) (signer : Bool)

/-- The proposal after one invocation: the handler's result on success, the
old proposal on any failure. -/
def stepInv (p : Proposal) : Invocation → Proposal
  | .approve bp key s =>
      if s then
        match approveLogic bp p key with
        | .ok p' => p'
        | .error _ => p
      else p
  | .execute bp s =>
      if s then
        match executeLogic bp p with
        | .ok p' => p'
        | .error _ => p
      else p

/-! ## Concrete test fixtures

Small concrete identities and records used to evaluate the handlers on
explicit inputs. -/

def key0 : Bytes32 := ⟨List.replicate 32 0, by simp⟩
def keyA : Bytes32 := ⟨List.replicate 32 1, by simp⟩
def keyB : Bytes32 := ⟨List.replicate 32 2, by simp⟩
def keyD : Bytes32 := ⟨List.replicate 32 3, by simp⟩
def keyX : Bytes32 := ⟨List.replicate 32 4, by simp⟩
def keyP : Bytes32 := ⟨List.replicate 32 5, by simp⟩

def act7 : Fin 65536 := ⟨7, by decide⟩

/-- A blueprint with approvers `[A, B]` and threshold 2. -/
def bpW : Blueprint :=
  { authority := key0, approvers := [keyA, keyB], threshold := ⟨2, by decide⟩ }

/-- A proposal under `bpW` with both approvals gathered, not yet executed. -/
def pReadyW : Proposal :=
  { blueprint := keyX, proposer := key0, action_ty := act7,
    payload_hash := key0, approvals := [keyA, keyB], executed := false }

/-- `pReadyW` after execution. -/
def pExecW : Proposal := { pReadyW with executed := true }

/-- A freshly proposed (empty-approvals) proposal, as `process_propose`
creates it under the blueprint slot at address `keyX`. -/
def pFreshW : Proposal :=
  { blueprint := keyX, proposer := keyB, action_ty := act7,
    payload_hash := key0, approvals := [], executed := false }

/-- A blueprint whose sole approver is `D`, threshold 1. -/
def bpC3 : Blueprint :=
  { authority := key0, approvers := [keyD], threshold := ⟨1, by decide⟩ }

/-- A proposal whose `blueprint` field (`keyX`) does not match the blueprint
slot address it will be presented with. -/
def pC3 : Proposal :=
  { blueprint := keyX, proposer := key0, action_ty := ⟨0, by decide⟩,
    payload_hash := key0, approvals := [keyD], executed := false }

/-! ## Parser/serializer round-trip lemmas -/

theorem parseBytes32_append (k : Bytes32) (r : List Byte) :
    parseBytes32 (k.val ++ r) = some (k, r) := by
  have h32 : k.val.length = 32 := k.2
  unfold parseBytes32
  rw [dif_pos (by simp [List.length_append, h32])]
  simp only [List.take_left' h32, List.drop_left' h32]

theorem parseBytes32_exact {b : List Byte} {k : Bytes32} {r : List Byte}
    (h : parseBytes32 b = some (k, r)) : b = k.val ++ r := by
  unfold parseBytes32 at h
  split at h
  · cases h
    exact (List.take_append_drop 32 b).symm
  · exact Option.noConfusion h

theorem parseU8_append (x : Byte) (r : List Byte) :
    parseU8 (x :: r) = some (x, r) := rfl

theorem parseU8_exact {b : List Byte} {x : Byte} {r : List Byte}
    (h : parseU8 b = some (x, r)) : b = x :: r := by
  cases b with
  | nil => exact Option.noConfusion h
  | cons b0 rest => cases h; rfl

theorem parseU16_append (n : Fin 65536) (r : List Byte) :
    parseU16 (encodeU16 n.val ++ r) = some (n, r) := by
  have hn := n.isLt
  simp only [encodeU16, parseU16, List.cons_append, List.nil_append,
    Option.some.injEq, Prod.mk.injEq, Fin.ext_iff]
  exact ⟨by omega, trivial⟩

theorem parseU16_exact {b : List Byte} {n : Fin 65536} {r : List Byte}
    (h : parseU16 b = some (n, r)) : b = encodeU16 n.val ++ r := by
  match b, h with
  | b0 :: b1 :: rest, h =>
    cases h
    have h0 := b0.isLt; have h1 := b1.isLt
    simp only [encodeU16, List.cons_append, List.nil_append, List.cons.injEq,
      Fin.ext_iff]
    exact ⟨by omega, by omega, trivial⟩

theorem parseU32_append {n : Nat} (hn : n < 4294967296) (r : List Byte) :
    parseU32 (encodeU32 n ++ r) = some (n, r) := by
  simp only [encodeU32, parseU32, List.cons_append, List.nil_append,
    Option.some.injEq, Prod.mk.injEq]
  exact ⟨by omega, trivial⟩

theorem parseU32_exact {b : List Byte} {n : Nat} {r : List Byte}
    (h : parseU32 b = some (n, r)) :
    b = encodeU32 n ++ r ∧ n < 4294967296 := by
  match b, h with
  | b0 :: b1 :: b2 :: b3 :: rest, h =>
    cases h
    have h0 := b0.isLt; have h1 := b1.isLt
    have h2 := b2.isLt; have h3 := b3.isLt
    refine ⟨?_, by omega⟩
    simp only [encodeU32, List.cons_append, List.nil_append, List.cons.injEq,
      Fin.ext_iff]
    exact ⟨by omega, by omega, by omega, by omega, trivial⟩

theorem parseBool_append (v : Bool) (r : List Byte) :
    parseBool (encodeBool v ++ r) = some (v, r) := by
  cases v <;> rfl

theorem parseBool_exact {b : List Byte} {v : Bool} {r : List Byte}
    (h : parseBool b = some (v, r)) : b = encodeBool v ++ r := by
  cases b with
  | nil => exact Option.noConfusion h
  | cons b0 rest =>
    have hb : parseBool (b0 :: rest) =
        if b0.val = 0 then some (false, rest)
        else if b0.val = 1 then some (true, rest) else none := rfl
    rw [hb] at h
    by_cases h0 : b0.val = 0
    · rw [if_pos h0] at h
      cases h
      have hz : b0 = (⟨0, by omega⟩ : Fin 256) := Fin.ext h0
      simp [hz, encodeBool]
    · rw [if_neg h0] at h
      by_cases h1 : b0.val = 1
      · rw [if_pos h1] at h
        cases h
        have ho : b0 = (⟨1, by omega⟩ : Fin 256) := Fin.ext h1
        simp [ho, encodeBool]
      · rw [if_neg h1] at h
        exact Option.noConfusion h

theorem parseKeys_append (ks : List Bytes32) (r : List Byte) :
    parseKeys ks.length (encodeKeys ks ++ r) = some (ks, r) := by
  induction ks generalizing r with
  | nil => rfl
  | cons k ks ih =>
      simp only [List.length_cons, encodeKeys, List.append_assoc]
      unfold parseKeys
      rw [parseBytes32_append]
      simp [ih]

theorem parseKeys_exact {n : Nat} {b : List Byte} {ks : List Bytes32}
    {r : List Byte} (h : parseKeys n b = some (ks, r)) :
    b = encodeKeys ks ++ r ∧ ks.length = n := by
  induction n generalizing b ks r with
  | zero =>
      simp only [parseKeys, Option.some.injEq, Prod.mk.injEq] at h
      obtain ⟨rfl, rfl⟩ := h
      exact ⟨rfl, rfl⟩
  | succ n ih =>
      unfold parseKeys at h
      cases hb : parseBytes32 b with
      | none => rw [hb] at h; exact Option.noConfusion h
      | some kr =>
          obtain ⟨k, r1⟩ := kr
          rw [hb] at h
          simp only [Option.bind_eq_bind, Option.some_bind] at h
          cases hk : parseKeys n r1 with
          | none => rw [hk] at h; exact Option.noConfusion h
          | some ksr =>
              obtain ⟨ks', r'⟩ := ksr
              rw [hk] at h
              simp only [Option.some_bind, Option.some.injEq,
                Prod.mk.injEq] at h
              obtain ⟨rfl, rfl⟩ := h
              obtain ⟨hb', hlen⟩ := ih hk
              refine ⟨?_, by simp [hlen]⟩
              rw [parseBytes32_exact hb, hb']
              simp [encodeKeys]

theorem decode_encodeBlueprint {bp : Blueprint} {b : List Byte}
    (h : encodeBlueprint bp = some b) : decodeBlueprint b = some bp := by
  unfold encodeBlueprint at h
  split at h
  case isTrue hlen =>
    cases h
    unfold decodeBlueprint parseBlueprint blueprintBytes
    rw [List.append_assoc, List.append_assoc, parseBytes32_append]
    simp only [Option.bind_eq_bind, Option.some_bind]
    rw [parseU32_append hlen]
    simp only [Option.some_bind]
    rw [parseKeys_append]
    simp only [Option.some_bind]
    rfl
  case isFalse => exact Option.noConfusion h

theorem encode_decodeBlueprint {b : List Byte} {bp : Blueprint}
    (h : decodeBlueprint b = some bp) : encodeBlueprint bp = some b := by
  unfold decodeBlueprint at h
  cases hp : parseBlueprint b with
  | none => rw [hp] at h; exact Option.noConfusion h
  | some pr =>
    obtain ⟨bp', rem⟩ := pr
    rw [hp] at h
    cases rem with
    | cons x xs => exact Option.noConfusion h
    | nil =>
      have hbp : bp' = bp := by cases h; rfl
      subst hbp
      unfold parseBlueprint at hp
      simp only [Option.bind_eq_bind, Option.bind_eq_some] at hp
      obtain ⟨⟨authority, r1⟩, h1, ⟨n, r2⟩, h2, ⟨ks, r3⟩, h3, ⟨t, r4⟩, h4, h5⟩ := hp
      dsimp only at h2 h3 h4 h5
      rw [Option.some.injEq, Prod.mk.injEq] at h5
      obtain ⟨rfl, rfl⟩ := h5
      obtain ⟨hr1, hn⟩ := parseU32_exact h2
      obtain ⟨hr2, hlen⟩ := parseKeys_exact h3
      unfold encodeBlueprint blueprintBytes
      dsimp only
      rw [if_pos (by omega)]
      rw [parseBytes32_exact h1, hr1, hr2, parseU8_exact h4, hlen]
      simp [List.append_assoc]

theorem parseBool_encode (v : Bool) : parseBool (encodeBool v) = some (v, []) := by
  cases v <;> rfl

theorem parseBytes32_self (k : Bytes32) : parseBytes32 k.val = some (k, []) := by
  simpa using parseBytes32_append k []

theorem decode_encodeProposal {p : Proposal} {b : List Byte}
    (h : encodeProposal p = some b) : decodeProposal b = some p := by
  unfold encodeProposal at h
  split at h
  case isTrue hlen =>
    cases h
    unfold decodeProposal parseProposal proposalBytes
    simp only [List.append_assoc]
    rw [parseBytes32_append]
    simp only [Option.bind_eq_bind, Option.some_bind]
    rw [parseBytes32_append]
    simp only [Option.some_bind]
    rw [parseU16_append]
    simp only [Option.some_bind]
    rw [parseBytes32_append]
    simp only [Option.some_bind]
    rw [parseU32_append hlen]
    simp only [Option.some_bind]
    rw [parseKeys_append]
    simp only [Option.some_bind]
    rw [parseBool_encode]
    rfl
  case isFalse => exact Option.noConfusion h

theorem encode_decodeProposal {b : List Byte} {p : Proposal}
    (h : decodeProposal b = some p) : encodeProposal p = some b := by
  unfold decodeProposal at h
  cases hp : parseProposal b with
  | none => rw [hp] at h; exact Option.noConfusion h
  | some pr =>
    obtain ⟨p', rem⟩ := pr
    rw [hp] at h
    cases rem with
    | cons x xs => exact Option.noConfusion h
    | nil =>
      have hps : p' = p := by cases h; rfl
      subst hps
      unfold parseProposal at hp
      simp only [Option.bind_eq_bind, Option.bind_eq_some] at hp
      obtain ⟨⟨bpk, r1⟩, h1, ⟨prk, r2⟩, h2, ⟨a16, r3⟩, h3, ⟨ph, r4⟩, h4,
        ⟨n, r5⟩, h5, ⟨ks, r6⟩, h6, ⟨ex, r7⟩, h7, h8⟩ := hp
      dsimp only at h2 h3 h4 h5 h6 h7 h8
      rw [Option.some.injEq, Prod.mk.injEq] at h8
      obtain ⟨rfl, rfl⟩ := h8
      obtain ⟨hr4, hn⟩ := parseU32_exact h5
      obtain ⟨hr5, hlen⟩ := parseKeys_exact h6
      unfold encodeProposal proposalBytes
      dsimp only
      rw [if_pos (by omega)]
      rw [parseBytes32_exact h1, parseBytes32_exact h2, parseU16_exact h3,
        parseBytes32_exact h4, hr4, hr5, parseBool_exact h7, hlen]
      simp [List.append_assoc]

theorem decode_encodeInstruction {ix : BlueprintInstruction} {b : List Byte}
    (h : encodeInstruction ix = some b) : decodeInstruction b = some ix := by
  cases ix with
  | InitializeBlueprint approvers t =>
      simp only [encodeInstruction] at h
      split at h
      next hlen =>
        cases h
        unfold decodeInstruction parseInstruction instructionBytes
        simp only [parseU8, List.append_assoc, Option.bind_eq_bind,
          Option.some_bind]
        rw [if_pos trivial, parseU32_append hlen]
        simp only [Option.some_bind]
        rw [parseKeys_append]
        simp only [Option.some_bind]
      next => exact Option.noConfusion h
  | ProposeAction a16 ph =>
      cases h
      unfold decodeInstruction parseInstruction instructionBytes
      simp only [parseU8, Option.bind_eq_bind, Option.some_bind]
      rw [if_pos trivial, parseU16_append]
      simp only [Option.some_bind]
      rw [parseBytes32_self]
      rfl
  | ApproveAction => cases h; rfl
  | ExecuteAction => cases h; rfl

theorem encode_decodeInstruction {b : List Byte} {ix : BlueprintInstruction}
    (h : decodeInstruction b = some ix) : encodeInstruction ix = some b := by
  unfold decodeInstruction at h
  cases hp : parseInstruction b with
  | none => rw [hp] at h; exact Option.noConfusion h
  | some pr =>
    obtain ⟨ix', rem⟩ := pr
    rw [hp] at h
    cases rem with
    | cons x xs => exact Option.noConfusion h
    | nil =>
      have hix : ix' = ix := by cases h; rfl
      subst hix
      cases b with
      | nil => simp [parseInstruction, parseU8] at hp
      | cons tag r0 =>
        unfold parseInstruction at hp
        simp only [parseU8, Option.bind_eq_bind, Option.some_bind] at hp
        split at hp
        next h0 =>
          simp only [Option.bind_eq_bind, Option.bind_eq_some] at hp
          obtain ⟨⟨n, r1⟩, h1, ⟨ks, r2⟩, h2, ⟨t, r3⟩, h3, h4⟩ := hp
          dsimp only at h2 h3 h4
          rw [Option.some.injEq, Prod.mk.injEq] at h4
          obtain ⟨rfl, rfl⟩ := h4
          obtain ⟨hr0, hn⟩ := parseU32_exact h1
          obtain ⟨hr1, hlen⟩ := parseKeys_exact h2
          have htag : tag = (⟨0, by decide⟩ : Fin 256) := Fin.ext h0
          subst htag
          unfold encodeInstruction instructionBytes
          dsimp only
          rw [if_pos (by omega)]
          rw [hr0, hr1, parseU8_exact h3, hlen]
          simp [List.append_assoc]
        next =>
        split at hp
        next h1' =>
          simp only [Option.bind_eq_bind, Option.bind_eq_some] at hp
          obtain ⟨⟨a16, r1⟩, h1, ⟨ph, r2⟩, h2, h3⟩ := hp
          dsimp only at h2 h3
          rw [Option.some.injEq, Prod.mk.injEq] at h3
          obtain ⟨rfl, rfl⟩ := h3
          have htag : tag = (⟨1, by decide⟩ : Fin 256) := Fin.ext h1'
          subst htag
          unfold encodeInstruction instructionBytes
          rw [parseU16_exact h1, parseBytes32_exact h2]
          simp
        next =>
        split at hp
        next h2' =>
          rw [Option.some.injEq, Prod.mk.injEq] at hp
          obtain ⟨rfl, rfl⟩ := hp
          have htag : tag = (⟨2, by decide⟩ : Fin 256) := Fin.ext h2'
          subst htag
          rfl
        next =>
        split at hp
        next h3' =>
          rw [Option.some.injEq, Prod.mk.injEq] at hp
          obtain ⟨rfl, rfl⟩ := hp
          have htag : tag = (⟨3, by decide⟩ : Fin 256) := Fin.ext h3'
          subst htag
          rfl
        next => exact Option.noConfusion hp

/-! ## Derived facts about encodings and the handlers -/

theorem encodeKeys_length (ks : List Bytes32) :
    (encodeKeys ks).length = 32 * ks.length := by
  induction ks with
  | nil => rfl
  | cons k ks ih =>
      simp only [encodeKeys, List.length_append, List.length_cons, k.2, ih]
      omega

theorem encodeBool_length (v : Bool) : (encodeBool v).length = 1 := by
  cases v <;> rfl

theorem proposalBytes_length (p : Proposal) :
    (proposalBytes p).length = 103 + 32 * p.approvals.length := by
  simp only [proposalBytes, List.length_append, p.blueprint.2, p.proposer.2,
    p.payload_hash.2, encodeU16, encodeU32, encodeKeys_length,
    encodeBool_length, List.length_cons, List.length_nil]
  omega

/-- A slot that `try_from_slice`-decodes to `p` holds exactly the canonical
encoding of `p` (full consumption forbids trailing bytes). -/
theorem decodeProposal_eq_bytes {b : List Byte} {p : Proposal}
    (h : decodeProposal b = some p) :
    b = proposalBytes p ∧ p.approvals.length < 4294967296 := by
  have he := encode_decodeProposal h
  unfold encodeProposal at he
  split at he
  next hlt => exact ⟨(Option.some.inj he).symm, hlt⟩
  next => exact Option.noConfusion he

theorem decodeBlueprint_eq_bytes {b : List Byte} {bp : Blueprint}
    (h : decodeBlueprint b = some bp) :
    b = blueprintBytes bp ∧ bp.approvers.length < 4294967296 := by
  have he := encode_decodeBlueprint h
  unfold encodeBlueprint at he
  split at he
  next hlt => exact ⟨(Option.some.inj he).symm, hlt⟩
  next => exact Option.noConfusion he

/-- An executed proposal is left untouched by any single invocation: both
handlers fail with `AlreadyExecuted` before their write. -/
theorem stepInv_frozen {p : Proposal} (hp : p.executed = true)
    (i : Invocation) : stepInv p i = p := by
  cases i with
  | approve bp key s =>
      cases s
      · rfl
      · simp [stepInv, approveLogic, hp]
  | execute bp s =>
      cases s
      · rfl
      · simp [stepInv, executeLogic, hp]

theorem foldl_stepInv_frozen {p : Proposal} (hp : p.executed = true)
    (invs : List Invocation) : List.foldl stepInv p invs = p := by
  induction invs with
  | nil => rfl
  | cons i invs ih => rw [List.foldl_cons, stepInv_frozen hp, ih]

theorem writeSlot_exact {slot data : List Byte} (h : data.length = slot.length) :
    writeSlot slot data = .ok data := by
  unfold writeSlot
  rw [if_pos h.le, h, List.drop_length, List.append_nil]

theorem writeSlot_overflow {slot data : List Byte}
    (h : slot.length < data.length) : writeSlot slot data = .error .Panic := by
  unfold writeSlot
  rw [if_neg (by omega)]

theorem approveLogic_ok_approvals {bp : Blueprint} {p p' : Proposal}
    {k : Pubkey} (h : approveLogic bp p k = .ok p') :
    p'.approvals = p.approvals ++ [k] := by
  unfold approveLogic at h
  split at h
  next => exact Except.noConfusion h
  next =>
  split at h
  next => exact Except.noConfusion h
  next =>
  split at h
  next => exact Except.noConfusion h
  next => rw [← Except.ok.inj h]

set_option maxRecDepth 40000

/-! ## Claims -/

/-- C1 counterexample: the claimed success branch is false of the program.
`B` is a signing approver of `bpW`, both slots are well formed, the
proposal is unexecuted and `B` has not yet approved — every premise of the
claim's "otherwise the call succeeds and appends" branch holds — yet the
call does not succeed: it aborts at the write-back. -/
theorem C1_counterexample :
    pFreshW.executed = false ∧
    keyB ∈ bpW.approvers ∧
    keyB ∉ pFreshW.approvals ∧
    decodeBlueprint (blueprintBytes bpW) = some bpW ∧
    decodeProposal (proposalBytes pFreshW) = some pFreshW ∧
    processApprove ⟨keyB, true, []⟩ ⟨keyX, false, blueprintBytes bpW⟩
      ⟨keyP, false, proposalBytes pFreshW⟩ = .error .Panic :=
  ⟨rfl, by decide, by decide, rfl, rfl, rfl⟩

/-- C1 (amended): For an Approve invocation with a signing approver and
slots that decode to `bp` and `p`, the checks run in order: an executed
proposal fails with `AlreadyExecuted` (even when the caller is not an
approver); then a caller outside `bp.approvers` fails with `Unauthorized`;
then a caller already in `p.approvals` fails with `AlreadyApproved`.
Otherwise the transition logic accepts and appends the caller to the
approvals list — but the call itself never returns success: a well-formed
slot holds exactly the prior encoding, the appended entry grows the
re-encoding past the slot capacity, and the write-back aborts with a
panic. -/
theorem C1_approve_check_order (approver blueprint_ai proposal_ai : AccountInfo)
    (bp : Blueprint) (p : Proposal)
    (hs : approver.signer = true)
    (hbp : decodeBlueprint blueprint_ai.data = some bp)
    (hp : decodeProposal proposal_ai.data = some p) :
    (p.executed = true →
      processApprove approver blueprint_ai proposal_ai
        = .error .AlreadyExecuted) ∧
    (p.executed = false → approver.key ∉ bp.approvers →
      processApprove approver blueprint_ai proposal_ai
        = .error .Unauthorized) ∧
    (p.executed = false → approver.key ∈ bp.approvers →
        approver.key ∈ p.approvals →
      processApprove approver blueprint_ai proposal_ai
        = .error .AlreadyApproved) ∧
    (p.executed = false → approver.key ∈ bp.approvers →
        approver.key ∉ p.approvals →
      approveLogic bp p approver.key =
        .ok { p with approvals := p.approvals ++ [approver.key] } ∧
      (p.approvals.length + 1 < 4294967296 →
        processApprove approver blueprint_ai proposal_ai = .error .Panic)) ∧
    (∀ res, processApprove approver blueprint_ai proposal_ai ≠ .ok res) := by
  refine ⟨?_, ?_, ?_, ?_, ?_⟩
  · intro hex
    simp [processApprove, hs, hbp, hp, approveLogic, hex]
  · intro hex hmem
    simp [processApprove, hs, hbp, hp, approveLogic, hex, hmem]
  · intro hex hmem hdup
    simp [processApprove, hs, hbp, hp, approveLogic, hex, hmem, hdup]
  · intro hex hmem hdup
    refine ⟨by simp [approveLogic, hex, hmem, hdup], ?_⟩
    intro hbound
    obtain ⟨hb, hlen⟩ := decodeProposal_eq_bytes hp
    have henc : encodeProposal
        { p with approvals := p.approvals ++ [approver.key] } =
        some (proposalBytes
          { p with approvals := p.approvals ++ [approver.key] }) := by
      unfold encodeProposal
      rw [if_pos (by simpa using hbound)]
    have hwlen : proposal_ai.data.length <
        (proposalBytes
          { p with approvals := p.approvals ++ [approver.key] }).length := by
      rw [hb, proposalBytes_length, proposalBytes_length]
      simp only [List.length_append, List.length_cons, List.length_nil]
      omega
    rw [hex] at henc hwlen
    simp [processApprove, hs, hbp, hp, approveLogic, hex, hmem, hdup, henc,
      writeSlot_overflow hwlen]
  · intro res h
    unfold processApprove at h
    split at h
    next => exact Except.noConfusion h
    next =>
    split at h
    next => exact Except.noConfusion h
    next =>
    split at h
    next => exact Except.noConfusion h
    next p2 hp2 =>
    split at h
    next => exact Except.noConfusion h
    next p' hlog =>
    split at h
    next => exact Except.noConfusion h
    next d henc' =>
    split at h
    next => exact Except.noConfusion h
    next nd hw =>
      obtain ⟨hb2, _⟩ := decodeProposal_eq_bytes hp2
      have hd : d = proposalBytes p' := by
        unfold encodeProposal at henc'
        split at henc'
        next => exact (Option.some.inj henc').symm
        next => exact Option.noConfusion henc'
      unfold writeSlot at hw
      split at hw
      next hle =>
        rw [hd, proposalBytes_length, approveLogic_ok_approvals hlog, hb2,
          proposalBytes_length] at hle
        simp only [List.length_append, List.length_cons, List.length_nil] at hle
        omega
      next => exact Except.noConfusion hw

/-- C1 witness: an Approve on an already-executed proposal by `D`, who is
not an approver of `bpW`, fails with `AlreadyExecuted`, not `Unauthorized`;
and an otherwise-accepted Approve by the approver `A` on the fresh proposal
aborts at the write-back instead of succeeding. -/
theorem C1_approve_check_order_witness :
    processApprove ⟨keyD, true, []⟩ ⟨keyX, false, blueprintBytes bpW⟩
      ⟨keyP, false, proposalBytes pExecW⟩ = .error .AlreadyExecuted ∧
    processApprove ⟨keyA, true, []⟩ ⟨keyX, false, blueprintBytes bpW⟩
      ⟨keyP, false, proposalBytes pFreshW⟩ = .error .Panic :=
  ⟨(C1_approve_check_order ⟨keyD, true, []⟩ ⟨keyX, false, blueprintBytes bpW⟩
      ⟨keyP, false, proposalBytes pExecW⟩ bpW pExecW rfl rfl rfl).1 rfl,
   ((C1_approve_check_order ⟨keyA, true, []⟩ ⟨keyX, false, blueprintBytes bpW⟩
      ⟨keyP, false, proposalBytes pFreshW⟩ bpW pFreshW rfl rfl rfl).2.2.2.1
        rfl (by decide) (by decide)).2 (by decide)⟩

/-- C2: For an Execute invocation with a signing executor (approver
membership is never consulted) and slots that decode to `bp` and `p`: an
executed proposal fails with `AlreadyExecuted`; fewer approvals than the
threshold fails with `NotEnoughApprovals`; otherwise the call succeeds, the
blueprint slot is returned unchanged and the written-back proposal slot
decodes to `p` with `executed = true`. -/
theorem C2_execute_contract (executor blueprint_ai proposal_ai : AccountInfo)
    (bp : Blueprint) (p : Proposal)
    (hs : executor.signer = true)
    (hbp : decodeBlueprint blueprint_ai.data = some bp)
    (hp : decodeProposal proposal_ai.data = some p) :
    (p.executed = true →
      processExecute executor blueprint_ai proposal_ai
        = .error .AlreadyExecuted) ∧
    (p.executed = false → p.approvals.length < bp.threshold.val →
      processExecute executor blueprint_ai proposal_ai
        = .error .NotEnoughApprovals) ∧
    (p.executed = false → bp.threshold.val ≤ p.approvals.length →
      processExecute executor blueprint_ai proposal_ai =
        .ok (blueprint_ai,
          { proposal_ai with
              data := proposalBytes { p with executed := true } }) ∧
      decodeProposal (proposalBytes { p with executed := true }) =
        some { p with executed := true }) := by
  obtain ⟨hb, hlen⟩ := decodeProposal_eq_bytes hp
  refine ⟨?_, ?_, ?_⟩
  · intro hex
    simp [processExecute, hs, hbp, hp, executeLogic, hex]
  · intro hex hth
    simp [processExecute, hs, hbp, hp, executeLogic, hex, hth]
  · intro hex hth
    have hlen' : ({ p with executed := true } : Proposal).approvals.length
        < 4294967296 := hlen
    have henc : encodeProposal { p with executed := true } =
        some (proposalBytes { p with executed := true }) := by
      unfold encodeProposal
      rw [if_pos hlen']
    have hweq : (proposalBytes { p with executed := true }).length
        = proposal_ai.data.length := by
      rw [hb, proposalBytes_length, proposalBytes_length]
    constructor
    · simp [processExecute, hs, hbp, hp, executeLogic, hex,
        Nat.not_lt.mpr hth, henc, writeSlot_exact hweq]
    · exact decode_encodeProposal henc

/-- C2 witness: with both approvals gathered (threshold 2), Execute by a
signer who is not an approver succeeds and flips `executed`. -/
theorem C2_execute_contract_witness :
    processExecute ⟨keyD, true, []⟩ ⟨keyX, false, blueprintBytes bpW⟩
      ⟨keyP, false, proposalBytes pReadyW⟩ =
      .ok (⟨keyX, false, blueprintBytes bpW⟩,
        ⟨keyP, false, proposalBytes { pReadyW with executed := true } ⟩) :=
  ((C2_execute_contract ⟨keyD, true, []⟩ ⟨keyX, false, blueprintBytes bpW⟩
    ⟨keyP, false, proposalBytes pReadyW⟩ bpW pReadyW rfl rfl rfl).2.2
      rfl (by decide)).1

/-- C5: once a proposal is executed, no sequence of Approve or Execute
invocations (succeeding or failing, under any blueprint slot and signer
flag) changes it at all, and its `executed` flag stays `true`. -/
theorem C5_executed_monotone (p : Proposal) (invs : List Invocation)
    (hp : p.executed = true) :
    List.foldl stepInv p invs = p ∧
    (List.foldl stepInv p invs).executed = true := by
  have h := foldl_stepInv_frozen hp invs
  exact ⟨h, by rw [h]; exact hp⟩

/-- C5 witness: an executed proposal survives a burst of further approve
and execute attempts unchanged. -/
theorem C5_executed_monotone_witness :
    List.foldl stepInv pExecW
      [.approve bpW keyA true, .execute bpW true, .approve bpW keyD true]
      = pExecW ∧
    (List.foldl stepInv pExecW
      [.approve bpW keyA true, .execute bpW true, .approve bpW keyD true]).executed
      = true :=
  C5_executed_monotone pExecW
    [.approve bpW keyA true, .execute bpW true, .approve bpW keyD true] rfl

/-- C6: an accepted Approve appends exactly one approval, the appended
identity is an approver of the blueprint, and a duplicate-free approvals
list stays duplicate-free. -/
theorem C6_accepted_approve_shape (bp : Blueprint) (p p' : Proposal)
    (k : Pubkey) (h : approveLogic bp p k = .ok p') :
    p'.approvals = p.approvals ++ [k] ∧
    p'.approvals.length = p.approvals.length + 1 ∧
    k ∈ bp.approvers ∧
    (p.approvals.Nodup → p'.approvals.Nodup) := by
  unfold approveLogic at h
  split at h
  next => exact Except.noConfusion h
  next hex =>
  split at h
  next => exact Except.noConfusion h
  next hmem =>
  split at h
  next => exact Except.noConfusion h
  next hdup =>
    have hp' : p' = { p with approvals := p.approvals ++ [k] } :=
      (Except.ok.inj h).symm
    subst hp'
    refine ⟨rfl, by simp, not_not.mp hmem, ?_⟩
    intro hnd
    simp [List.nodup_append, hnd, hdup]

/-- C6 witness: `A` approving the fresh proposal under `bpW` appends one
entry and keeps the approvals duplicate-free. -/
theorem C6_accepted_approve_shape_witness :
    ({ pFreshW with approvals := [keyA] } : Proposal).approvals
        = pFreshW.approvals ++ [keyA] ∧
    ({ pFreshW with approvals := [keyA] } : Proposal).approvals.length
        = pFreshW.approvals.length + 1 ∧
    keyA ∈ bpW.approvers ∧
    (pFreshW.approvals.Nodup →
      ({ pFreshW with approvals := [keyA] } : Proposal).approvals.Nodup) :=
  C6_accepted_approve_shape bpW pFreshW _ keyA rfl

/-- C7: with the signer and address-derivation preconditions met,
Initialize accepts a threshold exactly when `1 ≤ threshold ≤ |approvers|`
and fails with `InvalidArgument` otherwise. -/
theorem C7_threshold_bounds (authority blueprint_ai : AccountInfo)
    (pda : Pubkey) (approvers : List Pubkey) (t : Byte)
    (hs : authority.signer = true) (hpda : pda = blueprint_ai.key) :
    (processInitialize authority blueprint_ai pda approvers t =
        .ok { authority := authority.key, approvers := approvers,
              threshold := t }
      ↔ 1 ≤ t.val ∧ t.val ≤ approvers.length) ∧
    (¬ (1 ≤ t.val ∧ t.val ≤ approvers.length) →
      processInitialize authority blueprint_ai pda approvers t =
        .error .InvalidArgument) := by
  have hcond : (t.val = 0 ∨ t.val > approvers.length) ↔
      ¬ (1 ≤ t.val ∧ t.val ≤ approvers.length) := by omega
  constructor
  · constructor
    · intro h
      by_contra hc
      rw [← hcond] at hc
      simp [processInitialize, hs, hc] at h
    · intro hok
      have hneg : ¬ (t.val = 0 ∨ t.val > approvers.length) := by omega
      simp [processInitialize, hs, hpda, hneg]
  · intro hc
    rw [← hcond] at hc
    simp [processInitialize, hs, hc]

/-- C7 witness: with approvers `[A, B]`, threshold 2 is accepted while 0
and 3 fail with `InvalidArgument`. -/
theorem C7_threshold_bounds_witness :
    processInitialize ⟨key0, true, []⟩ ⟨keyX, false, []⟩ keyX [keyA, keyB]
        ⟨2, by decide⟩ =
      .ok { authority := key0, approvers := [keyA, keyB],
            threshold := ⟨2, by decide⟩ } ∧
    processInitialize ⟨key0, true, []⟩ ⟨keyX, false, []⟩ keyX [keyA, keyB]
        ⟨0, by decide⟩ = .error .InvalidArgument ∧
    processInitialize ⟨key0, true, []⟩ ⟨keyX, false, []⟩ keyX [keyA, keyB]
        ⟨3, by decide⟩ = .error .InvalidArgument :=
  ⟨(C7_threshold_bounds ⟨key0, true, []⟩ ⟨keyX, false, []⟩ keyX [keyA, keyB]
      ⟨2, by decide⟩ rfl rfl).1.mpr (by decide),
   (C7_threshold_bounds ⟨key0, true, []⟩ ⟨keyX, false, []⟩ keyX [keyA, keyB]
      ⟨0, by decide⟩ rfl rfl).2 (by decide),
   (C7_threshold_bounds ⟨key0, true, []⟩ ⟨keyX, false, []⟩ keyX [keyA, keyB]
      ⟨3, by decide⟩ rfl rfl).2 (by decide)⟩

/-- C9: the entity encoding is lossless and canonical: whenever borsh
serialization succeeds, decoding its output restores the value; and any
byte string accepted by `try_from_slice` is exactly the encoding of the
decoded value. -/
theorem C9_roundtrip :
    (∀ (bp : Blueprint) (b : List Byte),
        encodeBlueprint bp = some b → decodeBlueprint b = some bp) ∧
    (∀ (p : Proposal) (b : List Byte),
        encodeProposal p = some b → decodeProposal b = some p) ∧
    (∀ (b : List Byte) (bp : Blueprint),
        decodeBlueprint b = some bp → encodeBlueprint bp = some b) ∧
    (∀ (b : List Byte) (p : Proposal),
        decodeProposal b = some p → encodeProposal p = some b) :=
  ⟨fun _ _ h => decode_encodeBlueprint h,
   fun _ _ h => decode_encodeProposal h,
   fun _ _ h => encode_decodeBlueprint h,
   fun _ _ h => encode_decodeProposal h⟩

/-- C9 witness: the concrete blueprint and proposal fixtures round-trip. -/
theorem C9_roundtrip_witness :
    decodeBlueprint (blueprintBytes bpW) = some bpW ∧
    decodeProposal (proposalBytes pReadyW) = some pReadyW :=
  ⟨C9_roundtrip.1 bpW _ rfl, C9_roundtrip.2.1 pReadyW _ rfl⟩

/-- C10: a successful Execute changes only the `executed` field of the
proposal, and never writes the blueprint slot. -/
theorem C10_execute_frame :
    (∀ (bp : Blueprint) (p p' : Proposal), executeLogic bp p = .ok p' →
      p'.blueprint = p.blueprint ∧ p'.proposer = p.proposer ∧
      p'.action_ty = p.action_ty ∧ p'.payload_hash = p.payload_hash ∧
      p'.approvals = p.approvals ∧ p'.executed = true) ∧
    (∀ (executor blueprint_ai proposal_ai : AccountInfo)
        (res : AccountInfo × AccountInfo),
      processExecute executor blueprint_ai proposal_ai = .ok res →
      res.1 = blueprint_ai) := by
  constructor
  · intro bp p p' h
    unfold executeLogic at h
    split at h
    next => exact Except.noConfusion h
    next =>
    split at h
    next => exact Except.noConfusion h
    next =>
      have hp' : p' = { p with executed := true } := (Except.ok.inj h).symm
      subst hp'
      exact ⟨rfl, rfl, rfl, rfl, rfl, rfl⟩
  · intro e bai pai res h
    unfold processExecute at h
    split at h
    next => exact Except.noConfusion h
    next =>
    split at h
    next => exact Except.noConfusion h
    next =>
    split at h
    next => exact Except.noConfusion h
    next =>
    split at h
    next => exact Except.noConfusion h
    next =>
    split at h
    next => exact Except.noConfusion h
    next =>
    split at h
    next => exact Except.noConfusion h
    next =>
      have := Except.ok.inj h
      rw [← this]

/-- C10 witness: executing the ready proposal preserves every field except
`executed`. -/
theorem C10_execute_frame_witness :
    pExecW.blueprint = pReadyW.blueprint ∧ pExecW.proposer = pReadyW.proposer ∧
    pExecW.action_ty = pReadyW.action_ty ∧
    pExecW.payload_hash = pReadyW.payload_hash ∧
    pExecW.approvals = pReadyW.approvals ∧ pExecW.executed = true :=
  C10_execute_frame.1 bpW pReadyW pExecW rfl

/-- C3: the code lacks the parent-link check.  The proposal `pC3` records
`keyX` as its parent blueprint, yet when it is presented together with a
blueprint slot at the unrelated address `keyB`, Execute succeeds — judged
against that slot's approver set and threshold — and the Approve check
logic likewise accepts the mismatched pair (only failing later, at the
capacity write, never with an address-mismatch error). -/
theorem C3_missing_parent_link :
    pC3.blueprint ≠ keyB ∧
    processExecute ⟨keyD, true, []⟩ ⟨keyB, false, blueprintBytes bpC3⟩
        ⟨keyP, false, proposalBytes pC3⟩ =
      .ok (⟨keyB, false, blueprintBytes bpC3⟩,
        ⟨keyP, false, proposalBytes { pC3 with executed := true }⟩) ∧
    approveLogic bpC3 { pC3 with approvals := [] } keyD = .ok pC3 :=
  ⟨by decide, rfl, rfl⟩

/-- C4: a proposal slot is sized at creation to the encoding with an empty
approvals list, and the first accepted Approve re-encodes 32 bytes more
than the slot holds; the handler then hits the out-of-range slice in the
write-back (modelled as `Panic`) instead of returning an error. -/
theorem C4_write_back_panics :
    processPropose ⟨keyB, true, []⟩ ⟨keyX, false, blueprintBytes bpW⟩
        ⟨keyP, false, []⟩ keyP act7 key0 = .ok (proposalBytes pFreshW) ∧
    (proposalBytes pFreshW).length <
      (proposalBytes { pFreshW with approvals := [keyA] }).length ∧
    processApprove ⟨keyA, true, []⟩ ⟨keyX, false, blueprintBytes bpW⟩
        ⟨keyP, false, proposalBytes pFreshW⟩ = .error .Panic :=
  ⟨rfl, by decide, rfl⟩

/-- C8 counterexample: the command tag is not a 32-bit little-endian word.
`[2, 0, 0, 0]` — the Approve command under the claimed shape — is rejected
with `InvalidInstruction`, while the single byte `[2]` is accepted as
Approve. -/
theorem C8_counterexample :
    dispatchDecode [⟨2, by decide⟩, ⟨0, by decide⟩, ⟨0, by decide⟩,
        ⟨0, by decide⟩] = .error .InvalidInstruction ∧
    dispatchDecode [⟨2, by decide⟩] = .ok .ApproveAction :=
  ⟨rfl, rfl⟩

/-- C8 (amended): the command is a single-byte borsh tag (0=Initialize,
1=Propose, 2=Approve, 3=Execute) followed by the variant's fields in
declaration order, with nothing trailing: a byte string decodes to a
command exactly when it is that command's encoding, and dispatch rejects
every other byte string with `InvalidInstruction`. -/
theorem C8_wire_format (b : List Byte) (ix : BlueprintInstruction) :
    (decodeInstruction b = some ix ↔ encodeInstruction ix = some b) ∧
    ((∀ ix', encodeInstruction ix' ≠ some b) →
      dispatchDecode b = .error .InvalidInstruction) := by
  constructor
  · exact ⟨fun h => encode_decodeInstruction h,
           fun h => decode_encodeInstruction h⟩
  · intro hno
    unfold dispatchDecode
    cases hd : decodeInstruction b with
    | none => rfl
    | some ix' => exact absurd (encode_decodeInstruction hd) (hno ix')

/-- C8 witness: the one-byte string `[3]` decodes to the Execute command. -/
theorem C8_wire_format_witness :
    decodeInstruction [⟨3, by decide⟩] = some .ExecuteAction :=
  (C8_wire_format [⟨3, by decide⟩] .ExecuteAction).1.mpr rfl

end Blueprints
